import Mathlib

/-!
Verification of the PyFracPaq geometry-to-mechanics engine.

This file shallowly embeds the computational core of the repository:
the geometry model (`fracpy/types.py`), the orientation histogram
(`pyfracpaq/stats/orientation.py`) and the stress-projection and
directional-aggregation code of `pyfracpaq/gui/main_window.py`
(`_compute_slip_arrays`, `_plot_susceptibility_map`, `_plot_csf_map`,
`_plot_mohr_circle`, `_plot_rose_slip`, `_plot_rose_csf`).
Python floats are modelled as real numbers; Python `a % b` (sign of the
divisor) is modelled by `rmod` below.
-/

namespace Fracpy

noncomputable section

/-- Python float modulo `a % b` for `b > 0`: `a - b * floor (a / b)`. -/
def rmod (a b : ℝ) : ℝ := a - b * (⌊a / b⌋ : ℤ)

lemma rmod_eq_fract (a : ℝ) {b : ℝ} (hb : b ≠ 0) :
    rmod a b = b * Int.fract (a / b) := by
  rw [rmod, Int.fract]
  field_simp

lemma rmod_nonneg (a : ℝ) {b : ℝ} (hb : 0 < b) : 0 ≤ rmod a b := by
  rw [rmod_eq_fract a hb.ne']
  exact mul_nonneg hb.le (Int.fract_nonneg _)

lemma rmod_lt (a : ℝ) {b : ℝ} (hb : 0 < b) : rmod a b < b := by
  rw [rmod_eq_fract a hb.ne']
  calc b * Int.fract (a / b) < b * 1 :=
        (mul_lt_mul_left hb).2 (Int.fract_lt_one _)
    _ = b := mul_one b

/-- Evaluate `rmod` once the right multiple of the divisor is known. -/
lemma rmod_eq_of_int (a : ℝ) {b : ℝ} (k : ℤ) (hb : 0 < b)
    (h1 : 0 ≤ a - b * k) (h2 : a - b * k < b) : rmod a b = a - b * k := by
  have hf : ⌊a / b⌋ = k := by
    rw [Int.floor_eq_iff]
    constructor
    · rw [le_div_iff₀ hb]
      linarith
    · rw [div_lt_iff₀ hb]
      have : a < b + b * k := by linarith
      calc a < b + b * k := this
        _ = (k + 1) * b := by ring
  rw [rmod, hf]

lemma rmod_add_int_mul (a : ℝ) {b : ℝ} (k : ℤ) (hb : b ≠ 0) :
    rmod (a + b * k) b = rmod a b := by
  have hdiv : (a + b * k) / b = a / b + k := by
    field_simp
    ring
  rw [rmod, rmod, hdiv, Int.floor_add_int]
  push_cast
  ring

lemma rmod_idem (a : ℝ) {b : ℝ} (hb : 0 < b) :
    rmod (rmod a b) b = rmod a b := by
  have h := rmod_eq_of_int (rmod a b) 0 hb
    (by simpa using rmod_nonneg a hb) (by simpa using rmod_lt a hb)
  simpa using h

lemma rmod_rmod_360_180 (a : ℝ) :
    rmod (rmod a 360) 180 = rmod a 180 := by
  have h : rmod a 360 = a + 180 * ((-2) * ⌊a / 360⌋ : ℤ) := by
    rw [rmod]
    push_cast
    ring
  rw [h, rmod_add_int_mul a _ (by norm_num)]

/-- Model of `Segment` from `fracpy/types.py`: a pair of endpoints. -/
structure Segment where
  x1 : ℝ
  y1 : ℝ
  x2 : ℝ
  y2 : ℝ

/-- Model of `Segment.length`: Euclidean distance between the endpoints. -/
def Segment.length (s : Segment) : ℝ :=
  Real.sqrt ((s.x2 - s.x1) * (s.x2 - s.x1) + (s.y2 - s.y1) * (s.y2 - s.y1))

/-- Model of `Segment.angle_deg`: `degrees(atan2(dy, dx))` folded by `% 180.0`,
with results within `1e-12` of zero snapped to `0.0`.  `atan2(dy, dx)` is
`Complex.arg ⟨dx, dy⟩`, which has range `(-π, π]`. -/
def Segment.angle_deg (s : Segment) : ℝ :=
  let dx := s.x2 - s.x1
  let dy := s.y2 - s.y1
  let a := Complex.arg ⟨dx, dy⟩ * 180 / Real.pi
  let a180 := rmod a 180
  if |a180| < 1e-12 then 0 else a180

/-- Model of `Trace` from `fracpy/types.py`. -/
structure Trace where
  segments : List Segment

/-- Model of `Trace.total_length`. -/
def Trace.total_length (t : Trace) : ℝ :=
  (t.segments.map Segment.length).sum

/-- Model of `TraceMap` from `fracpy/types.py`. -/
structure TraceMap where
  traces : List Trace

/-- Model of `TraceMap.all_segments`. -/
def TraceMap.all_segments (m : TraceMap) : List Segment :=
  (m.traces.map Trace.segments).flatten

/-- Python `min` over a non-empty list (0 for the empty list, which the
source never queries). -/
def listMin : List ℝ → ℝ
  | [] => 0
  | [a] => a
  | a :: b :: r => min a (listMin (b :: r))

/-- Python `max` over a non-empty list (0 for the empty list, which the
source never queries). -/
def listMax : List ℝ → ℝ
  | [] => 0
  | [a] => a
  | a :: b :: r => max a (listMax (b :: r))

/-- Model of `TraceMap.map_limits`: min/max of all endpoint coordinates, or the
all-zero tuple when there are no segments. -/
def TraceMap.map_limits (m : TraceMap) : ℝ × ℝ × ℝ × ℝ :=
  let xs := (m.all_segments.map (fun s => [s.x1, s.x2])).flatten
  let ys := (m.all_segments.map (fun s => [s.y1, s.y2])).flatten
  if xs.isEmpty || ys.isEmpty then (0, 0, 0, 0)
  else (listMin xs, listMax xs, listMin ys, listMax ys)

/-- Model of `math.radians`: degrees to radians. -/
def radians (d : ℝ) : ℝ := d * Real.pi / 180

/-- North-referenced azimuth of a segment angle: `angN = (90.0 - angX) % 180.0`
(`_compute_slip_arrays`, line 1007). -/
def foldAngN (angX : ℝ) : ℝ := rmod (90 - angX) 180

/-- One axis flip as `_compute_slip_arrays` applies it (lines 1009-1012):
`angN = (180.0 - angN) % 180.0`, the same expression for flip-X and flip-Y. -/
def flipFold (a : ℝ) : ℝ := rmod (180 - a) 180

/-- The flip-X then flip-Y updates of `_compute_slip_arrays` (lines 1009-1012). -/
def applyFlips (fx fy : Bool) (a : ℝ) : ℝ :=
  let a1 := if fx then flipFold a else a
  if fy then flipFold a1 else a1

/-- Per-segment azimuth produced by `_compute_slip_arrays` (lines 1006-1012). -/
def segAngN (fx fy : Bool) (s : Segment) : ℝ :=
  applyFlips fx fy (foldAngN s.angle_deg)

/-- Code line 1013: `alpha = (angN + 90.0) - theta_sigma1`. -/
def segAlpha (theta : ℝ) (fx fy : Bool) (s : Segment) : ℝ :=
  segAngN fx fy s + 90 - theta

/-- Code line 1014:
`sn = 0.5*(sigma1+sigma2) + 0.5*(sigma1-sigma2)*cos(radians(2*alpha))`. -/
def segSigmaN (s1 s2 theta : ℝ) (fx fy : Bool) (s : Segment) : ℝ :=
  0.5 * (s1 + s2) + 0.5 * (s1 - s2) * Real.cos (radians (2 * segAlpha theta fx fy s))

/-- Code line 1015: `tau = -0.5*(sigma1-sigma2)*sin(radians(2*alpha))`. -/
def segTau (s1 s2 theta : ℝ) (fx fy : Bool) (s : Segment) : ℝ :=
  -0.5 * (s1 - s2) * Real.sin (radians (2 * segAlpha theta fx fy s))

/-- Code line 1019: `abs(tau)/abs(sn) if abs(sn) > 0 else 0.0`. -/
def segTs (s1 s2 theta : ℝ) (fx fy : Bool) (s : Segment) : ℝ :=
  if 0 < |segSigmaN s1 s2 theta fx fy s| then
    |segTau s1 s2 theta fx fy s| / |segSigmaN s1 s2 theta fx fy s|
  else 0

/-- Reference-pass ratio of `_compute_slip_arrays` (lines 1022-1028):
`alpha0 = angN + 90`, no theta, no flips. -/
def segTs0 (s1 s2 : ℝ) (s : Segment) : ℝ :=
  let angN := rmod (90 - s.angle_deg) 180
  let alpha0 := angN + 90
  let sn0 := 0.5 * (s1 + s2) + 0.5 * (s1 - s2) * Real.cos (radians (2 * alpha0))
  let tau0 := -0.5 * (s1 - s2) * Real.sin (radians (2 * alpha0))
  if 0 < |sn0| then |tau0| / |sn0| else 0

/-- Code lines 1029-1031:
`Tsmax = max(ratios0) if ratios0 else 1.0; if Tsmax <= 0: Tsmax = 1.0`. -/
def Tsmax (s1 s2 : ℝ) (segs : List Segment) : ℝ :=
  let r0 := segs.map (segTs0 s1 s2)
  let m := match r0 with
    | [] => 1
    | _ => listMax r0
  if m ≤ 0 then 1 else m

/-- Model of `_compute_slip_arrays`: returns the azimuth, normal-stress, shear-stress
and normalised-slip-tendency arrays (lines 998-1033).
`TsNorm = [max(0.0, min(1.0, r / Tsmax)) for r in ratios_theta]`. -/
def computeSlipArrays (s1 s2 theta : ℝ) (fx fy : Bool) (segs : List Segment) :
    List ℝ × List ℝ × List ℝ × List ℝ :=
  (segs.map (segAngN fx fy),
   segs.map (segSigmaN s1 s2 theta fx fy),
   segs.map (segTau s1 s2 theta fx fy),
   segs.map (fun s => max 0 (min 1 (segTs s1 s2 theta fx fy s / Tsmax s1 s2 segs))))

/-- Code line 1143 of `_plot_susceptibility_map`:
`mu_eff = mu if abs(mu) > 1e-12 else 1e-12`. -/
def muEff (mu : ℝ) : ℝ := if 1e-12 < |mu| then mu else 1e-12

/-- Fracture susceptibility `Sf = abs(sn) - pf - (abs(tau) - C0) / mu_eff`
(`_plot_susceptibility_map`, lines 1144-1147). -/
def Sf (mu C0 pf sn tau : ℝ) : ℝ := |sn| - pf - (|tau| - C0) / muEff mu

/-- CSF classification `abs(tau) >= mu * (abs(sn) - pf) + C0`
(`_plot_csf_map` line 1301, `_plot_rose_csf` line 1352). -/
def csfProp (mu C0 pf sn tau : ℝ) : Prop := mu * (|sn| - pf) + C0 ≤ |tau|

/-- Mohr-circle centre `0.5 * (sigma1 + sigma2)` (`_plot_mohr_circle`,
line 1218). -/
def mohrCenter (s1 s2 : ℝ) : ℝ := 0.5 * (s1 + s2)

/-- Mohr-circle radius `0.5 * abs(sigma1 - sigma2)` (`_plot_mohr_circle`,
line 1219). -/
def mohrRadius (s1 s2 : ℝ) : ℝ := 0.5 * |s1 - s2|

/-- Bin edge `k` of `np.linspace(0.0, 360.0, bins + 1)` used by `rose_hist`
(`pyfracpaq/stats/orientation.py`, lines 35-38). -/
def binEdgeDeg (bins k : ℕ) : ℝ := 360 * k / bins

/-- Membership of a value in histogram bin `k` of `np.histogram` with the
`linspace` edges: half-open bins, except that the last bin also contains its
right edge. -/
def inBin (bins k : ℕ) (v : ℝ) : Prop :=
  binEdgeDeg bins k ≤ v ∧
    (v < binEdgeDeg bins (k + 1) ∨ (k + 1 = bins ∧ v = binEdgeDeg bins (k + 1)))

instance (bins k : ℕ) (v : ℝ) : Decidable (inBin bins k v) := by
  unfold inBin
  infer_instance

/-- Counts per bin of `np.histogram(a_full, bins=bins_deg)`. -/
def histCounts (bins : ℕ) (l : List ℝ) : List ℕ :=
  (List.range bins).map (fun k => l.countP (fun v => decide (inBin bins k v)))

/-- The bidirectional fold `a = np.mod(a, 180.0)` of `rose_hist` (line 32). -/
def foldAngles (angles : List ℝ) : List ℝ := angles.map (fun a => rmod a 180)

/-- Code line 34 of `rose_hist`: `a_full = np.concatenate([a, (a + 180.0)])`. -/
def foldedDoubled (angles : List ℝ) : List ℝ :=
  foldAngles angles ++ (foldAngles angles).map (fun a => a + 180)

/-- The counts array returned by `rose_hist` with `bidirectional=True`
(lines 30-43). -/
def rose_hist_counts (angles : List ℝ) (bins : ℕ) : List ℕ :=
  histCounts bins (foldedDoubled angles)

/-- The `theta` array returned by `rose_hist`: edge midpoints converted to
radians (lines 41-42). -/
def rose_hist_theta (bins : ℕ) : List ℝ :=
  (List.range bins).map
    (fun k => radians ((binEdgeDeg bins k + binEdgeDeg bins (k + 1)) / 2))

/-- Number of directional bins of the stress roses (`dir_bins = 36`). -/
def dirBins : ℕ := 36

/-- Polar-angle transform of `_plot_rose_slip` (lines 1451-1457) and
`_plot_rose_csf` (lines 1357-1362): `theta = np.deg2rad(angs2)`, flip-X as
`pi - theta`, flip-Y as `-theta`, then `(theta + 2*pi) % (2*pi)`. -/
def roseTheta (fx fy : Bool) (aDeg : ℝ) : ℝ :=
  let t0 := radians aDeg
  let t1 := if fx then Real.pi - t0 else t0
  let t2 := if fy then -t1 else t1
  rmod (t2 + 2 * Real.pi) (2 * Real.pi)

/-- Bin index assigned by `np.digitize(theta, np.linspace(0, 2*np.pi,
dir_bins + 1)) - 1`: for `theta` in `[0, 2*pi)` this is the floor of
`theta / (2*pi / dir_bins)`. -/
def binIndex (t : ℝ) : ℤ := ⌊t / (2 * Real.pi / dirBins)⌋

/-- The mirrored members assigned to directional bin `k` by `_plot_rose_csf`
(lines 1351-1367): azimuths are duplicated with `(a + 180.0) % 360.0`, CSF
flags are duplicated unchanged, and each pair lands in the bin given by
`binIndex` of its transformed polar angle. -/
def roseBinMembers (angs : List ℝ) (csf : List Bool) (fx fy : Bool) (k : ℤ) :
    List (ℝ × Bool) :=
  ((angs ++ angs.map (fun a => rmod (a + 180) 360)).zip (csf ++ csf)).filter
    (fun p => decide (binIndex (roseTheta fx fy p.1) = k))

/-- Bin mean of the 0/1 CSF flags (`means` with `np.divide(..., where=counts>0)`,
lines 1364-1369): sum of member flags over member count, 0 for an empty bin. -/
def roseCsfMean (angs : List ℝ) (csf : List Bool) (fx fy : Bool) (k : ℤ) : ℝ :=
  let m := roseBinMembers angs csf fx fy k
  if 0 < m.length then
    ((m.map (fun p => if p.2 then (1 : ℝ) else 0)).sum) / m.length
  else 0

/-- Bin classification `classes = (means >= 0.5)` (`_plot_rose_csf`,
line 1392). -/
def roseCsfClass (angs : List ℝ) (csf : List Bool) (fx fy : Bool) (k : ℤ) : Prop :=
  0.5 ≤ roseCsfMean angs csf fx fy k

/-- The fixed percentage ladder `perc_levels = [1, 5, 10, 20, 30, 50]`
(`_plot_rose_slip` line 1496, `_plot_rose_csf` line 1385). -/
def percLevels : List ℝ := [1, 5, 10, 20, 30, 50]

/-- First ladder member at least `m`, with a default for when none qualifies. -/
def firstGE (m : ℝ) : List ℝ → ℝ → ℝ
  | [], dflt => dflt
  | p :: rest, dflt => if m ≤ p then p else firstGE m rest dflt

/-- Adaptive outer-ring selection of `_plot_rose_slip` (lines 1496-1503) and
`_plot_rose_csf` (lines 1385-1388): the first `pl` with `max_perc <= pl`,
defaulting to `perc_levels[-1] = 50`. -/
def showToPerc (maxFrac : ℝ) : ℝ := firstGE (maxFrac * 100) percLevels 50

/-- The Axis-Flip Transform as the spec words it (section 4.5): if flip-X,
`a ← 180 − a`; then if flip-Y, `a ← −a`; result normalized into `[0, 360)`
degrees (the spec states it in radians, `[0, 2π)`). -/
def specAxisFlip (fx fy : Bool) (a : ℝ) : ℝ :=
  let a1 := if fx then 180 - a else a
  let a2 := if fy then -a1 else a1
  rmod a2 360

/-- The normalization reference as the spec words it (section 4.3 step 6):
steps 3-5 recomputed with `alpha0 = angN + 90` (theta fixed at 0, no axis
flip) across all segments, `Tsmax = max(r0)`, replaced by 1.0 when that
maximum is `<= 0`. -/
def specTsmax (s1 s2 : ℝ) (segs : List Segment) : ℝ :=
  let r0 := segs.map (fun s =>
    let angN := rmod (90 - s.angle_deg) 180
    let alpha0 := angN + 90
    let sn0 := 0.5 * (s1 + s2) + 0.5 * (s1 - s2) * Real.cos (radians (2 * alpha0))
    let tau0 := -0.5 * (s1 - s2) * Real.sin (radians (2 * alpha0))
    if 0 < |sn0| then |tau0| / |sn0| else 0)
  if listMax r0 ≤ 0 then 1 else listMax r0

lemma foldAngN_nonneg (x : ℝ) : 0 ≤ foldAngN x := rmod_nonneg _ (by norm_num)

lemma foldAngN_lt (x : ℝ) : foldAngN x < 180 := rmod_lt _ (by norm_num)

lemma flipFold_flipFold {a : ℝ} (h0 : 0 ≤ a) (h1 : a < 180) :
    flipFold (flipFold a) = a := by
  rcases eq_or_lt_of_le h0 with h | h
  · have hz : flipFold 0 = 0 := by
      unfold flipFold
      have := rmod_eq_of_int (180 - 0) 1 (b := 180) (by norm_num) (by norm_num)
        (by norm_num)
      simpa using this
    rw [← h, hz, hz]
  · have hf : flipFold a = 180 - a := by
      unfold flipFold
      have := rmod_eq_of_int (180 - a) 0 (b := 180) (by norm_num)
        (by push_cast; linarith) (by push_cast; linarith)
      simpa using this
    rw [hf]
    unfold flipFold
    rw [show (180 : ℝ) - (180 - a) = a by ring]
    have := rmod_eq_of_int a 0 (b := 180) (by norm_num) (by push_cast; linarith)
      (by push_cast; linarith)
    simpa using this

lemma segAngN_both (s : Segment) : segAngN true true s = segAngN false false s := by
  simp only [segAngN, applyFlips, if_true, if_false]
  exact flipFold_flipFold (foldAngN_nonneg _) (foldAngN_lt _)

/-- C4: for every σ1, σ2 and every segment, the (σn, τ) pair computed with
θ = 0 and no axis flip lies exactly on the Mohr circle:
`(σn − center)² + τ² = radius²` with `center = (σ1+σ2)/2` and
`radius = |σ1−σ2|/2`, independent of the plane angle. -/
theorem claim4_mohr_identity (s1 s2 : ℝ) (s : Segment) :
    (segSigmaN s1 s2 0 false false s - mohrCenter s1 s2) ^ 2 +
      segTau s1 s2 0 false false s ^ 2 = mohrRadius s1 s2 ^ 2 := by
  have hsc := Real.sin_sq_add_cos_sq (radians (2 * segAlpha 0 false false s))
  have habs : |s1 - s2| ^ 2 = (s1 - s2) ^ 2 := sq_abs _
  simp only [segSigmaN, segTau, mohrCenter, mohrRadius]
  linear_combination (0.25 * (s1 - s2) ^ 2) * hsc - 0.25 * habs

/-- C8: on the empty segment list the stress projection returns four empty
sequences, the normalization divisor Tsmax defaults to 1.0, and
`map_limits` of an empty `TraceMap` is the all-zero tuple. -/
theorem claim8_empty_inputs (s1 s2 theta : ℝ) (fx fy : Bool) :
    computeSlipArrays s1 s2 theta fx fy [] = ([], [], [], []) ∧
    Tsmax s1 s2 [] = 1 ∧
    TraceMap.map_limits ⟨[]⟩ = (0, 0, 0, 0) := by
  refine ⟨by simp [computeSlipArrays], ?_, rfl⟩
  simp [Tsmax]

/-- C6: the adaptive outer-ring level is the smallest ladder member that is
at least `max(fraction) * 100`, is 50 when no ladder member qualifies, and a
maximum fraction of 25 percent selects 30. -/
theorem claim6_adaptive_ring (f : ℝ) :
    (f * 100 ≤ 50 →
      showToPerc f ∈ percLevels ∧ f * 100 ≤ showToPerc f ∧
        ∀ p ∈ percLevels, f * 100 ≤ p → showToPerc f ≤ p) ∧
    (50 < f * 100 → showToPerc f = 50) ∧
    showToPerc (1 / 4) = 30 := by
  refine ⟨?_, ?_, ?_⟩
  · intro h50
    simp only [showToPerc, percLevels, firstGE]
    split_ifs with h1 h2 h3 h4 h5 <;>
      refine ⟨by simp [percLevels], by linarith, ?_⟩ <;>
      · intro p hp hple
        simp only [percLevels, List.mem_cons, List.not_mem_nil, or_false] at hp
        rcases hp with rfl | rfl | rfl | rfl | rfl | rfl <;> linarith
  · intro h50
    simp only [showToPerc, percLevels, firstGE]
    split_ifs with h1 h2 h3 h4 h5 <;> linarith
  · norm_num [showToPerc, percLevels, firstGE]

/-- Witness for C6 at a maximum fraction of 25 percent. -/
theorem claim6_witness :
    (1 / 4 : ℝ) * 100 ≤ 50 ∧ showToPerc (1 / 4) ∈ percLevels ∧
      showToPerc (1 / 4) = 30 :=
  ⟨by norm_num, ((claim6_adaptive_ring (1 / 4)).1 (by norm_num)).1,
    (claim6_adaptive_ring (1 / 4)).2.2⟩

/-- C10: flip-X and flip-Y each apply the identical map
`angN ↦ (180 − angN) mod 180` on the folded azimuth, that map is a
self-inverse on `[0, 180)`, and enabling both flips returns exactly the same
four output arrays as enabling neither flip. -/
theorem claim10_double_flip_identity (s1 s2 theta : ℝ) (segs : List Segment) :
    (∀ x, applyFlips true false x = rmod (180 - x) 180 ∧
      applyFlips false true x = rmod (180 - x) 180) ∧
    (∀ a, 0 ≤ a → a < 180 → flipFold (flipFold a) = a) ∧
    computeSlipArrays s1 s2 theta true true segs =
      computeSlipArrays s1 s2 theta false false segs := by
  refine ⟨?_, fun a h0 h1 => flipFold_flipFold h0 h1, ?_⟩
  · intro x
    constructor <;> simp [applyFlips, flipFold]
  · have h : segAngN true true = segAngN false false := funext segAngN_both
    have hs : segSigmaN s1 s2 theta true true = segSigmaN s1 s2 theta false false :=
      funext fun s => by simp only [segSigmaN, segAlpha, segAngN_both]
    have ht : segTau s1 s2 theta true true = segTau s1 s2 theta false false :=
      funext fun s => by simp only [segTau, segAlpha, segAngN_both]
    have hr : segTs s1 s2 theta true true = segTs s1 s2 theta false false :=
      funext fun s => by simp only [segTs, segSigmaN, segTau, segAlpha, segAngN_both]
    simp only [computeSlipArrays, h, hs, ht, hr]

/-- Witness for C10 at a = 30 with an arbitrary concrete parameter set. -/
theorem claim10_witness :
    (0 : ℝ) ≤ 30 ∧ (30 : ℝ) < 180 ∧ flipFold (flipFold 30) = 30 :=
  ⟨by norm_num, by norm_num,
    (claim10_double_flip_identity 0 0 0 []).2.1 30 (by norm_num) (by norm_num)⟩

lemma muEff_of_pos {mu : ℝ} (hmu : 1e-12 < mu) : muEff mu = mu := by
  unfold muEff
  rw [if_pos]
  rw [abs_of_pos (by linarith)]
  exact hmu

/-- C1 (amended): for friction coefficients above the 1e-12 threshold, the
CSF classification holds iff the fracture susceptibility is ≤ 0, for the
(σn, τ) pair of every segment under every parameter set. -/
theorem claim1_csf_iff_sf (s1 s2 theta C0 pf mu : ℝ) (fx fy : Bool)
    (s : Segment) (hmu : 1e-12 < mu) :
    (csfProp mu C0 pf (segSigmaN s1 s2 theta fx fy s) (segTau s1 s2 theta fx fy s) ↔
      Sf mu C0 pf (segSigmaN s1 s2 theta fx fy s) (segTau s1 s2 theta fx fy s) ≤ 0) := by
  have hmu0 : 0 < mu := lt_trans (by norm_num) hmu
  set sn := segSigmaN s1 s2 theta fx fy s
  set tau := segTau s1 s2 theta fx fy s
  unfold csfProp Sf
  rw [muEff_of_pos hmu]
  rw [show (|sn| - pf - (|tau| - C0) / mu ≤ 0) ↔ (|sn| - pf ≤ (|tau| - C0) / mu) from
    by constructor <;> intro <;> linarith]
  rw [le_div_iff₀ hmu0]
  constructor <;> intro h <;> nlinarith

/-- Witness for C1 at μ = 0.6 and a concrete segment. -/
theorem claim1_witness :
    (1e-12 : ℝ) < 0.6 ∧
    (csfProp 0.6 0 0 (segSigmaN 100 50 0 false false ⟨0, 0, 1, 0⟩)
        (segTau 100 50 0 false false ⟨0, 0, 1, 0⟩) ↔
      Sf 0.6 0 0 (segSigmaN 100 50 0 false false ⟨0, 0, 1, 0⟩)
        (segTau 100 50 0 false false ⟨0, 0, 1, 0⟩) ≤ 0) :=
  ⟨by norm_num, claim1_csf_iff_sf 100 50 0 0 0 0.6 false false ⟨0, 0, 1, 0⟩ (by norm_num)⟩

lemma angle_deg_eval (s : Segment) :
    s.angle_deg =
      if |rmod (Complex.arg ⟨s.x2 - s.x1, s.y2 - s.y1⟩ * 180 / Real.pi) 180| < 1e-12
      then 0
      else rmod (Complex.arg ⟨s.x2 - s.x1, s.y2 - s.y1⟩ * 180 / Real.pi) 180 := rfl

lemma angle_deg_unitX : Segment.angle_deg ⟨0, 0, 1, 0⟩ = 0 := by
  rw [angle_deg_eval]
  have hc : (⟨(1 : ℝ) - 0, (0 : ℝ) - 0⟩ : ℂ) = 1 := by
    refine Complex.ext ?_ ?_ <;> simp
  rw [show ((⟨0, 0, 1, 0⟩ : Segment).x2 - (⟨0, 0, 1, 0⟩ : Segment).x1) = (1 : ℝ) - 0
      from rfl,
    show ((⟨0, 0, 1, 0⟩ : Segment).y2 - (⟨0, 0, 1, 0⟩ : Segment).y1) = (0 : ℝ) - 0
      from rfl,
    hc, Complex.arg_one]
  norm_num [rmod]

lemma foldAngN_zero : foldAngN 0 = 90 := by
  unfold foldAngN
  have := rmod_eq_of_int (90 - 0) 0 (b := 180) (by norm_num) (by norm_num) (by norm_num)
  simpa using this

lemma segAngN_unitX : segAngN false false ⟨0, 0, 1, 0⟩ = 90 := by
  simp [segAngN, applyFlips, angle_deg_unitX, foldAngN_zero]

lemma segSigmaN_unitX : segSigmaN 100 50 0 false false ⟨0, 0, 1, 0⟩ = 100 := by
  unfold segSigmaN segAlpha
  rw [segAngN_unitX]
  rw [show radians (2 * ((90 : ℝ) + 90 - 0)) = 2 * Real.pi from by
    unfold radians; field_simp; ring]
  rw [Real.cos_two_pi]
  norm_num

lemma segTau_unitX : segTau 100 50 0 false false ⟨0, 0, 1, 0⟩ = 0 := by
  unfold segTau segAlpha
  rw [segAngN_unitX]
  rw [show radians (2 * ((90 : ℝ) + 90 - 0)) = 2 * Real.pi from by
    unfold radians; field_simp; ring]
  rw [Real.sin_two_pi]
  norm_num

/-- Counterexample to C1 as stated: at μ = 0 (where `mu_eff` falls back to
1e-12) the segment (0,0)→(1,0) with σ1 = 100, σ2 = 50, θ = 0, C0 = 0,
pf = 0 is classified CSF although its susceptibility is 100 > 0. -/
theorem claim1_counterexample :
    csfProp 0 0 0 (segSigmaN 100 50 0 false false ⟨0, 0, 1, 0⟩)
      (segTau 100 50 0 false false ⟨0, 0, 1, 0⟩) ∧
    ¬ Sf 0 0 0 (segSigmaN 100 50 0 false false ⟨0, 0, 1, 0⟩)
      (segTau 100 50 0 false false ⟨0, 0, 1, 0⟩) ≤ 0 := by
  rw [segSigmaN_unitX, segTau_unitX]
  constructor
  · unfold csfProp
    norm_num
  · unfold Sf muEff
    norm_num

lemma arg_neg_sub {z : ℂ} (hz : z ≠ 0) :
    ∃ k : ℤ, Complex.arg (-z) = Complex.arg z + Real.pi + 2 * Real.pi * k := by
  have h := Complex.arg_neg_coe_angle hz
  rw [← Real.Angle.coe_add, Real.Angle.angle_eq_iff_two_pi_dvd_sub] at h
  obtain ⟨k, hk⟩ := h
  exact ⟨k, by linarith⟩

/-- C7: for every segment with non-coincident endpoints, the folded angle is
in [0, 180), and swapping the two endpoints yields the identical angle. -/
theorem claim7_angle_fold_swap (s : Segment) (h : (s.x1, s.y1) ≠ (s.x2, s.y2)) :
    0 ≤ s.angle_deg ∧ s.angle_deg < 180 ∧
      Segment.angle_deg ⟨s.x2, s.y2, s.x1, s.y1⟩ = s.angle_deg := by
  refine ⟨?_, ?_, ?_⟩
  · rw [angle_deg_eval]
    split_ifs
    · exact le_refl 0
    · exact rmod_nonneg _ (by norm_num)
  · rw [angle_deg_eval]
    split_ifs
    · norm_num
    · exact rmod_lt _ (by norm_num)
  · have hz : (⟨s.x2 - s.x1, s.y2 - s.y1⟩ : ℂ) ≠ 0 := by
      intro hc
      apply h
      have hre := congrArg Complex.re hc
      have him := congrArg Complex.im hc
      simp only [Complex.zero_re, Complex.zero_im] at hre him
      have hx : s.x1 = s.x2 := by
        have : s.x2 - s.x1 = 0 := hre
        linarith
      have hy : s.y1 = s.y2 := by
        have : s.y2 - s.y1 = 0 := him
        linarith
      rw [hx, hy]
    have hneg : (⟨s.x1 - s.x2, s.y1 - s.y2⟩ : ℂ) =
        -(⟨s.x2 - s.x1, s.y2 - s.y1⟩ : ℂ) := by
      refine Complex.ext ?_ ?_ <;> simp
    obtain ⟨k, hk⟩ := arg_neg_sub hz
    have hdeg : Complex.arg (-(⟨s.x2 - s.x1, s.y2 - s.y1⟩ : ℂ)) * 180 / Real.pi =
        Complex.arg ⟨s.x2 - s.x1, s.y2 - s.y1⟩ * 180 / Real.pi +
          180 * ((2 * k + 1 : ℤ) : ℝ) := by
      rw [hk]
      have hpi := Real.pi_ne_zero
      field_simp
      ring
    have hmod : rmod (Complex.arg (-(⟨s.x2 - s.x1, s.y2 - s.y1⟩ : ℂ)) * 180 / Real.pi) 180 =
        rmod (Complex.arg ⟨s.x2 - s.x1, s.y2 - s.y1⟩ * 180 / Real.pi) 180 := by
      rw [hdeg, rmod_add_int_mul _ (2 * k + 1) (by norm_num)]
    have e : Segment.angle_deg ⟨s.x2, s.y2, s.x1, s.y1⟩ =
        if |rmod (Complex.arg ⟨s.x1 - s.x2, s.y1 - s.y2⟩ * 180 / Real.pi) 180| < 1e-12
        then 0
        else rmod (Complex.arg ⟨s.x1 - s.x2, s.y1 - s.y2⟩ * 180 / Real.pi) 180 := rfl
    rw [e, hneg, hmod, angle_deg_eval]

/-- Witness for C7 at the segment (0,0)→(1,0). -/
theorem claim7_witness :
    ((0 : ℝ), (0 : ℝ)) ≠ ((1 : ℝ), (0 : ℝ)) ∧
    (0 ≤ Segment.angle_deg ⟨0, 0, 1, 0⟩ ∧ Segment.angle_deg ⟨0, 0, 1, 0⟩ < 180 ∧
      Segment.angle_deg ⟨1, 0, 0, 0⟩ = Segment.angle_deg ⟨0, 0, 1, 0⟩) :=
  ⟨by simp [Prod.ext_iff], claim7_angle_fold_swap ⟨0, 0, 1, 0⟩ (by simp [Prod.ext_iff])⟩

/-- C3: for every non-empty segment list the divisor Tsmax used by
`_compute_slip_arrays` equals the spec's reference maximum (computed with
`alpha0 = angN + 90`, θ = 0, no flips, floored at 1.0), and the TsNorm
output is `clamp(r / Tsmax, 0, 1)`; as `specTsmax` takes neither θ nor the
flip flags, the color-scale reference is independent of both. -/
theorem claim3_tsmax_reference (s1 s2 theta : ℝ) (fx fy : Bool)
    (segs : List Segment) (hne : segs ≠ []) :
    Tsmax s1 s2 segs = specTsmax s1 s2 segs ∧
    (computeSlipArrays s1 s2 theta fx fy segs).2.2.2 =
      segs.map (fun s =>
        max 0 (min 1 (segTs s1 s2 theta fx fy s / specTsmax s1 s2 segs))) := by
  have h1 : Tsmax s1 s2 segs = specTsmax s1 s2 segs := by
    cases segs with
    | nil => exact absurd rfl hne
    | cons a t => rfl
  refine ⟨h1, ?_⟩
  simp only [computeSlipArrays]
  rw [h1]

/-- Witness for C3 on a one-segment list. -/
theorem claim3_witness :
    ([⟨0, 0, 1, 0⟩] : List Segment) ≠ [] ∧
    Tsmax 100 50 [⟨0, 0, 1, 0⟩] = specTsmax 100 50 [⟨0, 0, 1, 0⟩] :=
  ⟨by simp, (claim3_tsmax_reference 100 50 0 false false [⟨0, 0, 1, 0⟩] (by simp)).1⟩

lemma rmod_self_of_range {t b : ℝ} (hb : 0 < b) (h0 : 0 ≤ t) (h1 : t < b) :
    rmod t b = t := by
  have := rmod_eq_of_int t 0 hb (by simpa) (by simpa)
  simpa using this

lemma flipFold_zero : flipFold 0 = 0 := by
  unfold flipFold
  have := rmod_eq_of_int (180 - 0) 1 (b := 180) (by norm_num) (by norm_num) (by norm_num)
  simpa using this

lemma flipFold_pos {a : ℝ} (h0 : 0 < a) (h1 : a ≤ 180) : flipFold a = 180 - a := by
  unfold flipFold
  exact rmod_self_of_range (by norm_num) (by linarith) (by linarith)

lemma radians_nonneg {x : ℝ} (h : 0 ≤ x) : 0 ≤ radians x := by
  unfold radians
  have := Real.pi_pos
  positivity

lemma radians_lt_two_pi {x : ℝ} (h : x < 360) : radians x < 2 * Real.pi := by
  unfold radians
  rw [div_lt_iff₀ (by norm_num : (0 : ℝ) < 180)]
  nlinarith [Real.pi_pos]

lemma radians_lt_pi {x : ℝ} (h : x < 180) : radians x < Real.pi := by
  unfold radians
  rw [div_lt_iff₀ (by norm_num : (0 : ℝ) < 180)]
  nlinarith [Real.pi_pos]

lemma radians_add (x y : ℝ) : radians (x + y) = radians x + radians y := by
  unfold radians
  ring

lemma radians_sub (x y : ℝ) : radians (x - y) = radians x - radians y := by
  unfold radians
  ring

lemma radians_zero : radians 0 = 0 := by
  unfold radians
  ring

lemma radians_180 : radians 180 = Real.pi := by
  unfold radians
  field_simp

lemma roseNorm_of_nonneg {t : ℝ} (h0 : 0 ≤ t) (h1 : t < 2 * Real.pi) :
    rmod (t + 2 * Real.pi) (2 * Real.pi) = t := by
  have h2pi : (0 : ℝ) < 2 * Real.pi := by positivity
  have := rmod_eq_of_int (t + 2 * Real.pi) 1 h2pi (by push_cast; linarith)
    (by push_cast; linarith)
  simpa using this

lemma roseNorm_of_neg {t : ℝ} (h0 : -(2 * Real.pi) ≤ t) (h1 : t < 0) :
    rmod (t + 2 * Real.pi) (2 * Real.pi) = t + 2 * Real.pi := by
  have h2pi : (0 : ℝ) < 2 * Real.pi := by positivity
  exact rmod_self_of_range h2pi (by linarith) (by linarith)

lemma applyFlips_spec (fx fy : Bool) {b : ℝ} (h0 : 0 ≤ b) (h1 : b < 180) :
    applyFlips fx fy b = rmod (specAxisFlip fx fy b) 180 := by
  cases fx <;> cases fy <;> simp only [applyFlips, specAxisFlip, if_true, if_false,
    Bool.false_eq_true, Bool.true_eq_false, ite_true, ite_false]
  · rw [rmod_self_of_range (by norm_num : (0:ℝ) < 360) h0 (by linarith),
      rmod_self_of_range (by norm_num : (0:ℝ) < 180) h0 h1]
  · rw [rmod_rmod_360_180]
    unfold flipFold
    rw [show (180 : ℝ) - b = -b + 180 * ((1 : ℤ) : ℝ) by push_cast; ring,
      rmod_add_int_mul _ 1 (by norm_num)]
  · rw [rmod_self_of_range (by norm_num : (0:ℝ) < 360) (by linarith) (by linarith)]
    rfl
  · rw [flipFold_flipFold h0 h1, rmod_rmod_360_180,
      show -(180 - b) = b + 180 * ((-1 : ℤ) : ℝ) by push_cast; ring,
      rmod_add_int_mul _ (-1) (by norm_num),
      rmod_self_of_range (by norm_num : (0:ℝ) < 180) h0 h1]

/-- The pair of polar angles at which the two mirrored copies of a segment
with folded azimuth `a` are binned by the rose plots: the flip adjustment of
`_compute_slip_arrays` (lines 1009-1012) followed by the mirroring
`(a + 180.0) % 360.0` (lines 1353, 1446) and the polar transform of
`_plot_rose_slip` / `_plot_rose_csf` (lines 1357-1362, 1453-1457). -/
def roseAngPair (fx fy : Bool) (a : ℝ) : ℝ × ℝ :=
  (roseTheta fx fy (applyFlips fx fy a),
   roseTheta fx fy (rmod (applyFlips fx fy a + 180) 360))

lemma rmod_mirror {c : ℝ} (h0 : 0 ≤ c) (h1 : c < 180) :
    rmod (c + 180) 360 = c + 180 :=
  rmod_self_of_range (by norm_num) (by linarith) (by linarith)

lemma radians_360 : radians 360 = 2 * Real.pi := by
  unfold radians
  field_simp
  ring

lemma applyFlips_ff_ff (a : ℝ) : applyFlips false false a = a := rfl

lemma applyFlips_tt_ff (a : ℝ) : applyFlips true false a = flipFold a := rfl

lemma applyFlips_ff_tt (a : ℝ) : applyFlips false true a = flipFold a := rfl

lemma applyFlips_tt_tt (a : ℝ) :
    applyFlips true true a = flipFold (flipFold a) := rfl

lemma roseTheta_ff_ff_def (x : ℝ) :
    roseTheta false false x = rmod (radians x + 2 * Real.pi) (2 * Real.pi) := rfl

lemma roseTheta_tt_ff_def (x : ℝ) :
    roseTheta true false x =
      rmod (Real.pi - radians x + 2 * Real.pi) (2 * Real.pi) := rfl

lemma roseTheta_ff_tt_def (x : ℝ) :
    roseTheta false true x = rmod (-radians x + 2 * Real.pi) (2 * Real.pi) := rfl

lemma roseTheta_tt_tt_def (x : ℝ) :
    roseTheta true true x =
      rmod (-(Real.pi - radians x) + 2 * Real.pi) (2 * Real.pi) := rfl

lemma roseAngPair_ff_ff {a : ℝ} (h0 : 0 ≤ a) (h1 : a < 180) :
    roseAngPair false false a = (radians a, radians a + Real.pi) := by
  unfold roseAngPair
  rw [applyFlips_ff_ff, rmod_mirror h0 h1, roseTheta_ff_ff_def, roseTheta_ff_ff_def,
    roseNorm_of_nonneg (radians_nonneg h0) (radians_lt_two_pi (by linarith)),
    roseNorm_of_nonneg (radians_nonneg (by linarith)) (radians_lt_two_pi (by linarith)),
    radians_add, radians_180]

lemma roseAngPair_flip_cancel (fx fy : Bool) {a : ℝ} (h0 : 0 ≤ a) (h1 : a < 180) :
    roseAngPair fx fy a = (radians a, radians a + Real.pi) ∨
    roseAngPair fx fy a = (radians a + Real.pi, radians a) := by
  have hpi := Real.pi_pos
  have hu0 : 0 ≤ radians a := radians_nonneg h0
  have hupi : radians a < Real.pi := radians_lt_pi h1
  cases fx <;> cases fy
  · exact Or.inl (roseAngPair_ff_ff h0 h1)
  · -- flip-Y only
    rcases eq_or_lt_of_le h0 with hz | hp
    · left
      subst hz
      unfold roseAngPair
      rw [applyFlips_ff_tt, flipFold_zero, rmod_mirror (le_refl 0) (by norm_num),
        roseTheta_ff_tt_def, roseTheta_ff_tt_def, zero_add, radians_zero, neg_zero,
        radians_180,
        roseNorm_of_nonneg (le_refl 0) (by linarith),
        show -Real.pi + 2 * Real.pi = -Real.pi + 2 * Real.pi from rfl,
        roseNorm_of_neg (by linarith) (by linarith)]
      simp only [Prod.mk.injEq, radians_zero]
      constructor <;> ring
    · right
      unfold roseAngPair
      rw [applyFlips_ff_tt, flipFold_pos hp h1.le,
        show (180 : ℝ) - a + 180 = 360 - a from by ring,
        rmod_self_of_range (by norm_num : (0:ℝ) < 360) (by linarith) (by linarith),
        roseTheta_ff_tt_def, roseTheta_ff_tt_def, radians_sub, radians_sub,
        radians_180, radians_360,
        show -(Real.pi - radians a) + 2 * Real.pi =
          radians a - Real.pi + 2 * Real.pi from by ring,
        roseNorm_of_neg (by linarith) (by linarith),
        show -(2 * Real.pi - radians a) + 2 * Real.pi =
          radians a - (2 * Real.pi) + 2 * Real.pi from by ring,
        roseNorm_of_neg (by linarith) (by linarith)]
      simp only [Prod.mk.injEq]
      constructor <;> ring
  · -- flip-X only
    rcases eq_or_lt_of_le h0 with hz | hp
    · right
      subst hz
      unfold roseAngPair
      rw [applyFlips_tt_ff, flipFold_zero, rmod_mirror (le_refl 0) (by norm_num),
        roseTheta_tt_ff_def, roseTheta_tt_ff_def, zero_add, radians_zero, sub_zero,
        radians_180, sub_self,
        roseNorm_of_nonneg (le_of_lt hpi) (by linarith),
        roseNorm_of_nonneg (le_refl 0) (by linarith)]
      simp only [Prod.mk.injEq, radians_zero]
      constructor <;> ring
    · left
      unfold roseAngPair
      rw [applyFlips_tt_ff, flipFold_pos hp h1.le,
        show (180 : ℝ) - a + 180 = 360 - a from by ring,
        rmod_self_of_range (by norm_num : (0:ℝ) < 360) (by linarith) (by linarith),
        roseTheta_tt_ff_def, roseTheta_tt_ff_def, radians_sub, radians_sub,
        radians_180, radians_360,
        show Real.pi - (Real.pi - radians a) + 2 * Real.pi =
          radians a + 2 * Real.pi from by ring,
        roseNorm_of_nonneg hu0 (by linarith),
        show Real.pi - (2 * Real.pi - radians a) + 2 * Real.pi =
          radians a - Real.pi + 2 * Real.pi from by ring,
        roseNorm_of_neg (by linarith) (by linarith)]
      simp only [Prod.mk.injEq]
      constructor <;> ring
  · -- both flips
    right
    unfold roseAngPair
    rw [applyFlips_tt_tt, flipFold_flipFold h0 h1, rmod_mirror h0 h1,
      roseTheta_tt_tt_def, roseTheta_tt_tt_def, radians_add, radians_180,
      show -(Real.pi - radians a) + 2 * Real.pi =
        radians a - Real.pi + 2 * Real.pi from by ring,
      roseNorm_of_neg (by linarith) (by linarith),
      show -(Real.pi - (radians a + Real.pi)) + 2 * Real.pi =
        radians a + 2 * Real.pi from by ring,
      roseNorm_of_nonneg hu0 (by linarith)]
    simp only [Prod.mk.injEq]
    constructor <;> ring

lemma specAxisFlip_ff_ff (a : ℝ) : specAxisFlip false false a = rmod a 360 := rfl

lemma specAxisFlip_tt_ff (a : ℝ) :
    specAxisFlip true false a = rmod (180 - a) 360 := rfl

lemma specAxisFlip_ff_tt (a : ℝ) : specAxisFlip false true a = rmod (-a) 360 := rfl

lemma specAxisFlip_tt_tt (a : ℝ) :
    specAxisFlip true true a = rmod (-(180 - a)) 360 := rfl

/-- C2 (amended): the azimuths fed into the stress projection agree with the
spec Axis-Flip Transform only modulo 180 degrees — each enabled flip acts on
the folded azimuth as `a ↦ (180 − a) mod 180`, keeping the result in
[0, 180) rather than [0, 2π) — and in the directional aggregation the flips
are applied a second time to the mirrored polar angles, cancelling out: the
pair of binned polar angles always equals, up to order, the unflipped pair
`(a, a + 180°)`. -/
theorem claim2_axis_flip (fx fy : Bool) (s : Segment) (a : ℝ)
    (h0 : 0 ≤ a) (h1 : a < 180) :
    segAngN fx fy s = rmod (specAxisFlip fx fy (foldAngN s.angle_deg)) 180 ∧
    roseAngPair false false a = (radians a, radians a + Real.pi) ∧
    (roseAngPair fx fy a = (radians a, radians a + Real.pi) ∨
      roseAngPair fx fy a = (radians a + Real.pi, radians a)) :=
  ⟨applyFlips_spec fx fy (foldAngN_nonneg _) (foldAngN_lt _),
   roseAngPair_ff_ff h0 h1, roseAngPair_flip_cancel fx fy h0 h1⟩

/-- Counterexample to C2 as stated: with only flip-Y enabled, the projection
azimuth of the segment (0,0)→(1,0) is 90, while the Axis-Flip Transform of
its north azimuth 90 is 270 — the code result is not the transform applied
once; and in the rose aggregation a flip-X-adjusted azimuth of 45 is binned
back at 45 (radians), not at the transform value 135. -/
theorem claim2_counterexample :
    segAngN false true ⟨0, 0, 1, 0⟩ = 90 ∧
    specAxisFlip false true (foldAngN (Segment.angle_deg ⟨0, 0, 1, 0⟩)) = 270 ∧
    roseTheta true false (flipFold 45) = radians 45 ∧
    specAxisFlip true false 45 = 135 ∧
    radians 45 ≠ radians 135 := by
  refine ⟨?_, ?_, ?_, ?_, ?_⟩
  · show applyFlips false true (foldAngN (Segment.angle_deg ⟨0, 0, 1, 0⟩)) = 90
    rw [angle_deg_unitX, foldAngN_zero, applyFlips_ff_tt,
      flipFold_pos (by norm_num) (by norm_num)]
    norm_num
  · rw [angle_deg_unitX, foldAngN_zero, specAxisFlip_ff_tt]
    have := rmod_eq_of_int (-(90 : ℝ)) (-1) (b := 360) (by norm_num) (by norm_num)
      (by norm_num)
    rw [this]
    norm_num
  · rw [flipFold_pos (by norm_num) (by norm_num),
      show (180 : ℝ) - 45 = 135 from by norm_num, roseTheta_tt_ff_def,
      show Real.pi - radians 135 + 2 * Real.pi = radians 45 + 2 * Real.pi from by
        rw [show (135 : ℝ) = 180 - 45 from by norm_num, radians_sub, radians_180]
        ring]
    exact roseNorm_of_nonneg (radians_nonneg (by norm_num))
      (radians_lt_two_pi (by norm_num))
  · rw [specAxisFlip_tt_ff, show (180 : ℝ) - 45 = 135 from by norm_num]
    exact rmod_self_of_range (by norm_num) (by norm_num) (by norm_num)
  · intro hc
    unfold radians at hc
    have hpi := Real.pi_pos
    field_simp at hc
    rcases hc with h | h
    · norm_num at h
    · exact Real.pi_ne_zero h

/-- Witness for C2 at flip-X, the segment (0,0)→(1,0) and azimuth 45. -/
theorem claim2_witness :
    (0 : ℝ) ≤ 45 ∧ (45 : ℝ) < 180 ∧
    (segAngN true false ⟨0, 0, 1, 0⟩ =
        rmod (specAxisFlip true false (foldAngN (Segment.angle_deg ⟨0, 0, 1, 0⟩))) 180 ∧
      roseAngPair false false 45 = (radians 45, radians 45 + Real.pi) ∧
      (roseAngPair true false 45 = (radians 45, radians 45 + Real.pi) ∨
        roseAngPair true false 45 = (radians 45 + Real.pi, radians 45))) :=
  ⟨by norm_num, by norm_num,
    claim2_axis_flip true false ⟨0, 0, 1, 0⟩ 45 (by norm_num) (by norm_num)⟩

lemma binIndex_roseTheta_eval {a : ℝ} (h0 : 0 ≤ a) (h1 : a < 360) :
    binIndex (roseTheta false false a) = ⌊a / 10⌋ := by
  rw [roseTheta_ff_ff_def,
    roseNorm_of_nonneg (radians_nonneg h0) (radians_lt_two_pi h1)]
  unfold binIndex dirBins
  congr 1
  unfold radians
  have hpi := Real.pi_ne_zero
  push_cast
  field_simp
  ring

lemma rmod_mirror_num {c : ℝ} (h0 : 0 ≤ c) (h1 : c + 180 < 360) :
    rmod (c + 180) 360 = c + 180 :=
  rmod_self_of_range (by norm_num) (by linarith) h1

lemma roseBinMembers_pair_eval :
    roseBinMembers [0, 5] [true, false] false false 0 = [(0, true), (5, false)] := by
  have hm0 : rmod (180 : ℝ) 360 = 180 :=
    rmod_self_of_range (by norm_num) (by norm_num) (by norm_num)
  have hm5 : rmod (185 : ℝ) 360 = 185 :=
    rmod_self_of_range (by norm_num) (by norm_num) (by norm_num)
  have e0 : binIndex (roseTheta false false (0 : ℝ)) = 0 := by
    rw [binIndex_roseTheta_eval (by norm_num) (by norm_num)]
    norm_num
  have e5 : binIndex (roseTheta false false (5 : ℝ)) = 0 := by
    rw [binIndex_roseTheta_eval (by norm_num) (by norm_num)]
    norm_num
  have e180 : binIndex (roseTheta false false (180 : ℝ)) = 18 := by
    rw [binIndex_roseTheta_eval (by norm_num) (by norm_num)]
    norm_num
  have e185 : binIndex (roseTheta false false (185 : ℝ)) = 18 := by
    rw [binIndex_roseTheta_eval (by norm_num) (by norm_num)]
    norm_num
  unfold roseBinMembers
  simp [show (5 : ℝ) + 180 = 185 from by norm_num, hm0, hm5, e0, e5, e180, e185]

/-- Counterexample to C5 as stated: the bin holding the mirrored members of
azimuths 0 and 5 with CSF flags (true, false) has mean exactly 1/2, yet the
code classifies it CSF (`means >= 0.5`), while the claim requires the mean
to exceed 0.5 and calls an exactly-half bin Non-CSF. -/
theorem claim5_counterexample :
    roseCsfClass [0, 5] [true, false] false false 0 ∧
    roseCsfMean [0, 5] [true, false] false false 0 = 1 / 2 := by
  have hmean : roseCsfMean [0, 5] [true, false] false false 0 = 1 / 2 := by
    have key : roseCsfMean [0, 5] [true, false] false false 0 =
        if 0 < (roseBinMembers [0, 5] [true, false] false false 0).length then
          ((roseBinMembers [0, 5] [true, false] false false 0).map
            (fun p => if p.2 then (1 : ℝ) else 0)).sum /
            (roseBinMembers [0, 5] [true, false] false false 0).length
        else 0 := rfl
    rw [key, roseBinMembers_pair_eval]
    norm_num
  refine ⟨?_, hmean⟩
  unfold roseCsfClass
  rw [hmean]
  norm_num

lemma sum_flags (m : List (ℝ × Bool)) :
    (m.map (fun p => if p.2 then (1 : ℝ) else 0)).sum =
      ((m.filter (fun p => p.2)).length : ℝ) := by
  induction m with
  | nil => simp
  | cons a t ih =>
    by_cases h : a.2
    · simp [List.filter_cons, h, ih]
      ring
    · simp [List.filter_cons, h, ih]

/-- C5 (amended): a directional bin of the CSF rose is classified CSF iff at
least half of its mirrored members are critically stressed (bin mean ≥ 0.5,
so a bin whose mean is exactly one half is CSF); an empty bin is Non-CSF. -/
theorem claim5_csf_bin_threshold (angs : List ℝ) (csf : List Bool)
    (fx fy : Bool) (k : ℤ) (hk0 : 0 ≤ k) (hk1 : k < 36) :
    ((roseBinMembers angs csf fx fy k).length = 0 →
      ¬ roseCsfClass angs csf fx fy k) ∧
    (0 < (roseBinMembers angs csf fx fy k).length →
      (roseCsfClass angs csf fx fy k ↔
        (roseBinMembers angs csf fx fy k).length ≤
          2 * ((roseBinMembers angs csf fx fy k).filter (fun p => p.2)).length)) := by
  have key : roseCsfMean angs csf fx fy k =
      if 0 < (roseBinMembers angs csf fx fy k).length then
        ((roseBinMembers angs csf fx fy k).map
          (fun p => if p.2 then (1 : ℝ) else 0)).sum /
          (roseBinMembers angs csf fx fy k).length
      else 0 := rfl
  constructor
  · intro hlen
    unfold roseCsfClass
    rw [key, hlen]
    norm_num
  · intro hpos
    unfold roseCsfClass
    rw [key, if_pos hpos, sum_flags]
    have hn : (0 : ℝ) < (roseBinMembers angs csf fx fy k).length := by
      exact_mod_cast hpos
    rw [le_div_iff₀ hn]
    constructor
    · intro h
      have hr : ((roseBinMembers angs csf fx fy k).length : ℝ) ≤
          2 * ((roseBinMembers angs csf fx fy k).filter (fun p => p.2)).length := by
        linarith
      exact_mod_cast hr
    · intro h
      have hr : ((roseBinMembers angs csf fx fy k).length : ℝ) ≤
          2 * ((roseBinMembers angs csf fx fy k).filter (fun p => p.2)).length := by
        exact_mod_cast h
      linarith

lemma roseBinMembers_single_eval :
    roseBinMembers [0] [true] false false 0 = [(0, true)] := by
  have hm0 : rmod (180 : ℝ) 360 = 180 :=
    rmod_self_of_range (by norm_num) (by norm_num) (by norm_num)
  have e0 : binIndex (roseTheta false false (0 : ℝ)) = 0 := by
    rw [binIndex_roseTheta_eval (by norm_num) (by norm_num)]
    norm_num
  have e180 : binIndex (roseTheta false false (180 : ℝ)) = 18 := by
    rw [binIndex_roseTheta_eval (by norm_num) (by norm_num)]
    norm_num
  unfold roseBinMembers
  simp [hm0, e0, e180]

/-- Witness for C5 on the one-member bin of azimuth 0 with flag true. -/
theorem claim5_witness :
    (0 : ℤ) ≤ 0 ∧ (0 : ℤ) < 36 ∧
    0 < (roseBinMembers [0] [true] false false 0).length ∧
    (roseCsfClass [0] [true] false false 0 ↔
      (roseBinMembers [0] [true] false false 0).length ≤
        2 * ((roseBinMembers [0] [true] false false 0).filter (fun p => p.2)).length) :=
  ⟨le_refl 0, by norm_num,
    by rw [roseBinMembers_single_eval]; norm_num,
    (claim5_csf_bin_threshold [0] [true] false false 0 (le_refl 0) (by norm_num)).2
      (by rw [roseBinMembers_single_eval]; norm_num)⟩

lemma list_range_map_sum (f : ℕ → ℕ) (n : ℕ) :
    ((List.range n).map f).sum = ∑ k in Finset.range n, f k := by
  induction n with
  | zero => simp
  | succ n ih => simp [List.range_succ, Finset.sum_range_succ, ih]

lemma inBin_iff {bins k : ℕ} (hb : 0 < bins) {v : ℝ} (h0 : 0 ≤ v) (h1 : v < 360)
    (hk : k < bins) :
    inBin bins k v ↔ ⌊v * bins / 360⌋ = (k : ℤ) := by
  have hbR : (0 : ℝ) < (bins : ℝ) := by exact_mod_cast hb
  unfold inBin binEdgeDeg
  rw [Int.floor_eq_iff]
  constructor
  · rintro ⟨hlo, hhi⟩
    rcases hhi with hhi | ⟨hkb, he⟩
    · constructor
      · push_cast
        rw [le_div_iff₀ (by norm_num : (0 : ℝ) < 360)]
        rw [div_le_iff₀ hbR] at hlo
        nlinarith
      · push_cast
        rw [div_lt_iff₀ (by norm_num : (0 : ℝ) < 360)]
        rw [lt_div_iff₀ hbR] at hhi
        push_cast at hhi
        nlinarith
    · exfalso
      rw [hkb] at he
      rw [he, mul_div_assoc, div_self (ne_of_gt hbR), mul_one] at h1
      exact lt_irrefl _ h1
  · rintro ⟨hlo, hhi⟩
    push_cast at hlo hhi
    constructor
    · rw [div_le_iff₀ hbR]
      rw [le_div_iff₀ (by norm_num : (0 : ℝ) < 360)] at hlo
      nlinarith
    · left
      rw [lt_div_iff₀ hbR]
      rw [div_lt_iff₀ (by norm_num : (0 : ℝ) < 360)] at hhi
      push_cast
      nlinarith

lemma sum_ite_inBin {bins : ℕ} (hb : 0 < bins) {v : ℝ} (h0 : 0 ≤ v) (h1 : v < 360) :
    (∑ k in Finset.range bins, if inBin bins k v then 1 else 0) = 1 := by
  have hbR : (0 : ℝ) < (bins : ℝ) := by exact_mod_cast hb
  have hfl0 : 0 ≤ ⌊v * bins / 360⌋ := by
    apply Int.floor_nonneg.2
    positivity
  set j : ℕ := (⌊v * bins / 360⌋).toNat with hjdef
  have hjcast : (j : ℤ) = ⌊v * bins / 360⌋ := Int.toNat_of_nonneg hfl0
  have hjlt : j < bins := by
    have hlt : v * bins / 360 < bins := by
      rw [div_lt_iff₀ (by norm_num : (0 : ℝ) < 360)]
      nlinarith
    have hfl : ⌊v * bins / 360⌋ < (bins : ℤ) := by
      apply Int.floor_lt.2
      push_cast
      exact hlt
    rw [← hjcast] at hfl
    exact_mod_cast hfl
  have hcongr : (∑ k in Finset.range bins, if inBin bins k v then 1 else 0) =
      ∑ k in Finset.range bins, if k = j then 1 else 0 := by
    apply Finset.sum_congr rfl
    intro k hk
    rw [Finset.mem_range] at hk
    apply if_congr _ rfl rfl
    rw [inBin_iff hb h0 h1 hk]
    constructor
    · intro h
      have hkz : (j : ℤ) = (k : ℤ) := by rw [hjcast, h]
      exact_mod_cast hkz.symm
    · intro h
      rw [h]
      exact hjcast.symm
  rw [hcongr, Finset.sum_ite_eq' (Finset.range bins) j (fun _ => 1),
    if_pos (Finset.mem_range.2 hjlt)]

lemma histCounts_sum {bins : ℕ} (hb : 0 < bins) :
    ∀ l : List ℝ, (∀ v ∈ l, 0 ≤ v ∧ v < 360) →
      (histCounts bins l).sum = l.length := by
  intro l
  unfold histCounts
  rw [list_range_map_sum]
  induction l with
  | nil => intro _; simp
  | cons v t ih =>
    intro hl
    have hv := hl v (List.mem_cons_self v t)
    have ht : ∀ w ∈ t, 0 ≤ w ∧ w < 360 := fun w hw => hl w (List.mem_cons_of_mem _ hw)
    simp only [List.countP_cons]
    rw [Finset.sum_add_distrib, ih ht]
    simp only [decide_eq_true_eq]
    rw [sum_ite_inBin hb hv.1 hv.2]
    simp [List.length_cons]

lemma floor_mirror {bins m : ℕ} (hbins : bins = 2 * m) {f : ℝ} :
    ⌊(f + 180) * bins / 360⌋ = ⌊f * bins / 360⌋ + m := by
  have harg : (f + 180) * bins / 360 = f * bins / 360 + m := by
    subst hbins
    push_cast
    field_simp
    ring
  rw [harg, Int.floor_add_nat]

/-- C9 (amended): for every finite angle list and every `bins ≥ 1`,
`rose_hist` with `bidirectional=True` folds each angle modulo 180, mirrors it
with +180, and histograms the doubled list into `linspace(0,360,bins+1)`
bins; the counts always sum to exactly twice the number of input angles, and
when `bins` is even (bins = 2m, m ≥ 1) the two copies of each angle land in
exactly two distinct opposite bins, `j` and `j + m` (offset half the
circle). For odd or single-bin histograms the "two opposite bins" clause of
the original claim fails. -/
theorem claim9_rose_hist_bins (angles : List ℝ) (bins : ℕ) (hb : 1 ≤ bins) :
    (rose_hist_counts angles bins).sum = 2 * angles.length ∧
    (∀ m : ℕ, bins = 2 * m → 1 ≤ m → ∀ a ∈ angles, ∃ j : ℕ,
      j + m < bins ∧ j ≠ j + m ∧
      (∀ k, k < bins → (inBin bins k (rmod a 180) ↔ k = j)) ∧
      (∀ k, k < bins → (inBin bins k (rmod a 180 + 180) ↔ k = j + m))) := by
  have hb0 : 0 < bins := hb
  constructor
  · have helts : ∀ v ∈ foldedDoubled angles, 0 ≤ v ∧ v < 360 := by
      intro v hv
      unfold foldedDoubled foldAngles at hv
      rw [List.mem_append] at hv
      rcases hv with hv | hv
      · rw [List.mem_map] at hv
        obtain ⟨a, _, rfl⟩ := hv
        have hlt := rmod_lt a (by norm_num : (0 : ℝ) < 180)
        exact ⟨rmod_nonneg _ (by norm_num), by linarith⟩
      · rw [List.mem_map] at hv
        obtain ⟨w, hw, rfl⟩ := hv
        rw [List.mem_map] at hw
        obtain ⟨a, _, rfl⟩ := hw
        have hlt := rmod_lt a (by norm_num : (0 : ℝ) < 180)
        have hge := rmod_nonneg a (by norm_num : (0 : ℝ) < 180)
        constructor <;> linarith
    unfold rose_hist_counts
    rw [histCounts_sum hb0 _ helts]
    unfold foldedDoubled foldAngles
    rw [List.length_append, List.length_map, List.length_map, List.length_map]
    ring
  · intro m hm hm1 a _
    have hbR : (0 : ℝ) < (bins : ℝ) := by exact_mod_cast hb0
    set f := rmod a 180 with hfdef
    have h0f : 0 ≤ f := rmod_nonneg _ (by norm_num)
    have h1f : f < 180 := rmod_lt _ (by norm_num)
    have hfl0 : 0 ≤ ⌊f * bins / 360⌋ := by
      apply Int.floor_nonneg.2
      positivity
    set j : ℕ := (⌊f * bins / 360⌋).toNat with hjdef
    have hjcast : (j : ℤ) = ⌊f * bins / 360⌋ := Int.toNat_of_nonneg hfl0
    have hjm : j < m := by
      have hlt : f * bins / 360 < m := by
        rw [div_lt_iff₀ (by norm_num : (0 : ℝ) < 360)]
        rw [hm]
        push_cast
        nlinarith [show (1 : ℝ) ≤ (m : ℝ) from by exact_mod_cast hm1]
      have hfl : ⌊f * bins / 360⌋ < (m : ℤ) := by
        apply Int.floor_lt.2
        push_cast
        exact hlt
      rw [← hjcast] at hfl
      exact_mod_cast hfl
    refine ⟨j, by omega, by omega, ?_, ?_⟩
    · intro k hk
      rw [inBin_iff hb0 h0f (by linarith) hk]
      constructor
      · intro h
        have hkz : (j : ℤ) = (k : ℤ) := by rw [hjcast, h]
        exact_mod_cast hkz.symm
      · intro h
        rw [h]
        exact hjcast.symm
    · intro k hk
      rw [inBin_iff hb0 (by linarith : (0:ℝ) ≤ f + 180) (by linarith) hk,
        floor_mirror hm]
      constructor
      · intro h
        have hkz : ((j + m : ℕ) : ℤ) = (k : ℤ) := by
          push_cast
          rw [hjcast, h]
        exact_mod_cast hkz.symm
      · intro h
        rw [h]
        push_cast
        rw [← hjcast]

/-- Counterexample to C9 as stated: with `bins = 1` the single bin receives
both mirrored copies of the angle 0 (the counts array is `[2]`), so the
angle does not contribute to two bins; and with `bins = 3` the two copies
land in bins 0 and 1, which are 120° apart, not opposite sectors. -/
theorem claim9_counterexample :
    rose_hist_counts [0] 1 = [2] ∧
    inBin 3 0 (rmod 0 180) ∧ inBin 3 1 (rmod 0 180 + 180) ∧
    binEdgeDeg 3 1 - binEdgeDeg 3 0 ≠ 180 := by
  have hr : rmod (0 : ℝ) 180 = 0 :=
    rmod_self_of_range (by norm_num) (le_refl 0) (by norm_num)
  refine ⟨?_, ?_, ?_, ?_⟩
  · unfold rose_hist_counts histCounts foldedDoubled foldAngles
    norm_num [hr, List.range_succ, inBin, binEdgeDeg]
  · rw [hr]
    norm_num [inBin, binEdgeDeg]
  · rw [hr]
    norm_num [inBin, binEdgeDeg]
  · norm_num [binEdgeDeg]

/-- Witness for C9 at the angle list [45] with four bins. -/
theorem claim9_witness :
    (rose_hist_counts [45] 4).sum = 2 * ([(45 : ℝ)] : List ℝ).length ∧
    (∃ j : ℕ, j + 2 < 4 ∧ j ≠ j + 2 ∧
      (∀ k, k < 4 → (inBin 4 k (rmod 45 180) ↔ k = j)) ∧
      (∀ k, k < 4 → (inBin 4 k (rmod 45 180 + 180) ↔ k = j + 2))) :=
  ⟨(claim9_rose_hist_bins [45] 4 (by norm_num)).1,
   (claim9_rose_hist_bins [45] 4 (by norm_num)).2 2 (by norm_num) (by norm_num) 45
     (by simp)⟩

end

end Fracpy
